import Mathlib

/-!
Verification of the retrieval pipeline in `backend/retriever.py`.

The embedding below follows the Python source line by line:

* floats are modelled as rationals (`ℚ`); `math.sqrt` is modelled by the
  nonnegative rational approximation `ratSqrt` (floor square root of the
  scaled numerator over the denominator) — every property proved here
  depends only on nonnegativity of the square root, not on its exact value;
* a Python exception is modelled as `Except.error`; code that can raise
  returns `Except String α`;
* the `dict` candidate produced in `retrieve` is the structure `Candidate`;
  a missing / invalid `vector` entry is `Option.none` (calling `zip` on it,
  as `_cosine` does, raises `TypeError` in Python, hence `cosineV` errors);
* Python's stable `sorted(key=..., reverse=True)` is modelled by the stable
  insertion sort `sortDesc`;
* the external collaborators (`search_vectors`, the Cohere client `co`) are
  passed as explicit parameters; `cohere_rerank` additionally returns the
  number of calls made to the external scoring service.
-/

attribute [local semireducible] Rat.add Rat.mul Rat.sub Rat.inv

deriving instance DecidableEq for Except

namespace Retriever

/-- Floor integer square root, computed by bisection on an explicit fuel so
that it reduces in the kernel. `isqrtGo n fuel lo hi` keeps `lo ≤ √n < hi`. -/
def isqrtGo (n : Nat) : Nat → Nat → Nat → Nat
  | 0, lo, _ => lo
  | fuel+1, lo, hi =>
    if lo + 1 < hi then
      let mid := (lo + hi) / 2
      if mid * mid ≤ n then isqrtGo n fuel mid hi else isqrtGo n fuel lo mid
    else lo

/-- Floor integer square root. -/
def isqrt (n : Nat) : Nat := isqrtGo n (n + 2) 0 (n + 1)

/-- Model of `math.sqrt` on the rationals: for `x = num/den ≥ 0` this is
`⌊√(num·den)⌋ / den`, a nonnegative rational approximation of `√x` (exact
whenever `num·den` is a perfect square).  The source only ever applies it to
sums of squares, which are nonnegative. -/
def ratSqrt (x : ℚ) : ℚ :=
  if x ≤ 0 then 0 else (isqrt (x.num.toNat * x.den) : ℚ) / (x.den : ℚ)

/-- The literal `1e-8` added to the cosine denominator in `_cosine`. -/
def eps : ℚ := 1 / 100000000

/-- `sum(x*y for x,y in zip(a,b))` — `zip` truncates to the shorter list. -/
def dotP (a b : List ℚ) : ℚ := ((a.zip b).map (fun p => p.1 * p.2)).sum

/-- `sum(x*x for x in a)`. -/
def sumSq (a : List ℚ) : ℚ := (a.map (fun x => x * x)).sum

/-- The denominator `na * nb + 1e-8` computed by `_cosine`. -/
def cosDenom (a b : List ℚ) : ℚ := ratSqrt (sumSq a) * ratSqrt (sumSq b) + eps

/-- `_cosine` from `retriever.py`: `dot / (na * nb + 1e-8)`. -/
def _cosine (a b : List ℚ) : ℚ := dotP a b / cosDenom a b

/-- One vector-search hit as normalised at the top of `retrieve`:
`{"id": str(...), "score": ..., "vector": ... or None, "payload": {...}}`.
`vector = none` models an absent or invalid (non-iterable) vector. -/
structure Candidate where
  id : String
  score : ℚ
  vector : Option (List ℚ)
  payload : List (String × String)
deriving DecidableEq

/-- `_cosine(c["vector"], s["vector"])`: if either stored vector is `None`,
Python raises `TypeError` when `zip` is applied to it. -/
def cosineV : Option (List ℚ) → Option (List ℚ) → Except String ℚ
  | some a, some b => .ok (_cosine a b)
  | _, _ => .error ("TypeError: argument of zip is not iterable")

/-- Folding `max` over the remaining cosines of
`max(_cosine(c["vector"], s["vector"]) for s in selected)`; the first
erroring term raises, as the generator would. -/
def maxCosines (c : Candidate) : List Candidate → ℚ → Except String ℚ
  | [], acc => .ok acc
  | s :: rest, acc =>
    match cosineV c.vector s.vector with
    | .error e => .error e
    | .ok q => maxCosines c rest (max acc q)

/-- `sim_sel = max(...) if selected else 0.0`. -/
def simSel (c : Candidate) : List Candidate → Except String ℚ
  | [] => .ok 0
  | s :: rest =>
    match cosineV c.vector s.vector with
    | .error e => .error e
    | .ok q => maxCosines c rest q

/-- The initial `best_val = -1e9` of the scan inside `mmr`. -/
def initBestVal : ℚ := -(1000000000 : ℚ)

/-- The `for i, c in enumerate(remaining)` scan of one `mmr` round:
`val = lamb * sim_q - (1.0 - lamb) * sim_sel`, updating the best index and
value on `val > best_val` (so the first strict maximum wins). The chosen
candidate is returned with its index, `none` if no `val` beat `best_val`. -/
def scanBest (lamb : ℚ) (selected : List Candidate) :
    List Candidate → Nat → Option (Nat × Candidate) → ℚ →
      Except String (Option (Nat × Candidate))
  | [], _, best, _ => .ok best
  | c :: rest, i, best, bestVal =>
    match simSel c selected with
    | .error e => .error e
    | .ok simS =>
      let val := lamb * c.score - (1 - lamb) * simS
      if bestVal < val then scanBest lamb selected rest (i + 1) (some (i, c)) val
      else scanBest lamb selected rest (i + 1) best bestVal

/-- The `while len(selected) < k and remaining:` loop of `mmr`.  The fuel is
`k - len(selected)`, which decreases by one per round, so `fuel = 0` is the
`len(selected) = k` exit.  `remaining.pop(best_idx)` with `best_idx = None`
raises `TypeError`. -/
def mmrLoop (lamb : ℚ) : Nat → List Candidate → List Candidate →
    Except String (List Candidate)
  | 0, selected, _ => .ok selected
  | _ + 1, selected, [] => .ok selected
  | fuel + 1, selected, c0 :: rest =>
    match scanBest lamb selected (c0 :: rest) 0 none initBestVal with
    | .error e => .error e
    | .ok none => .error ("TypeError: list indices must be integers or slices, not NoneType")
    | .ok (some (i, c)) =>
      mmrLoop lamb fuel (selected ++ [c]) ((c0 :: rest).eraseIdx i)

/-- `mmr(candidates, k, lamb)` from `retriever.py`. -/
def mmr (candidates : List Candidate) (k : Nat) (lamb : ℚ) :
    Except String (List Candidate) :=
  mmrLoop lamb k [] candidates

/-- Stable insertion (descending by `key`): the new element goes before the
first list element whose key is `≤` its own. -/
def insertDesc {α : Type} (key : α → ℚ) (a : α) : List α → List α
  | [] => [a]
  | b :: l => if key b ≤ key a then a :: b :: l else b :: insertDesc key a l

/-- Stable descending sort by `key`; extensionally equal to Python's stable
`sorted(..., key=key, reverse=True)`. -/
def sortDesc {α : Type} (key : α → ℚ) : List α → List α
  | [] => []
  | a :: l => insertDesc key a (sortDesc key l)

/-- First occurrence of the maximal key, with its index: the specification
of what one `mmr` scan picks when the value of a candidate is its key. -/
def firstMax {α : Type} (key : α → ℚ) : List α → Option (Nat × α)
  | [] => none
  | a :: l =>
    match firstMax key l with
    | none => some (0, a)
    | some (j, b) => if key b ≤ key a then some (0, a) else some (j + 1, b)

/-- Pure shadow of `scanBest` when the value of a candidate is exactly its
`score` (the `lamb = 1` case, where no cosine can fail). -/
def scanPure : List Candidate → Nat → Option (Nat × Candidate) → ℚ →
    Option (Nat × Candidate)
  | [], _, best, _ => best
  | c :: rest, i, best, bestVal =>
    if bestVal < c.score then scanPure rest (i + 1) (some (i, c)) c.score
    else scanPure rest (i + 1) best bestVal

/-- One entry of the external rerank response: `r.index` points into the
document list sent to the service, `r.score` is its relevance score. -/
structure RerankEntry where
  index : Nat
  score : ℚ
deriving DecidableEq

/-- The rerank response object `resp`, carrying `resp.results`. -/
structure RerankResp where
  results : List RerankEntry
deriving DecidableEq

/-- The external scoring capability `co.rerank(model=..., query=..., documents=...)`;
an `Except.error` models any exception thrown by the network call. -/
def RerankService : Type := String → List String → Except String RerankResp

/-- `co = cohere.Client(api_key=COHERE_API_KEY) if COHERE_API_KEY else None`:
the client exists only when a non-empty credential is present. -/
def mkClient (apiKey : Option String) (svc : RerankService) : Option RerankService :=
  match apiKey with
  | none => none
  | some k => if k = ("") then none else some svc

/-- A Python list comprehension whose body may raise: the first failing
element aborts the whole comprehension (`none` = exception). -/
def tryMap {α β : Type} (f : α → Option β) : List α → Option (List β)
  | [] => some []
  | a :: l =>
    match f a with
    | none => none
    | some b =>
      match tryMap f l with
      | none => none
      | some bs => some (b :: bs)

/-- `sorted(resp.results, key=lambda r: r.score, reverse=True)` — Python's
sort is stable, so this is the stable descending sort by score. -/
def sortResults (rs : List RerankEntry) : List RerankEntry :=
  sortDesc (fun r => r.score) rs

/-- `cohere_rerank(query, docs, model, top_k)` from `retriever.py`, with the
client `co` passed explicitly.  The second component counts the calls made
to the external service.  Return value `(ranked_docs, resp-or-None)`:
`docs[r.index]` with an out-of-range index raises `IndexError`, which the
`except` clause turns into `([], None)`. -/
def cohere_rerank (co : Option RerankService) (query : String)
    (docs : List String) (top_k : Nat) :
    (List String × Option RerankResp) × Nat :=
  match co with
  | none => (([], none), 0)
  | some svc =>
    if docs = [] then (([], none), 0)
    else
      match svc query docs with
      | .error _ => (([], none), 1)
      | .ok resp =>
        match tryMap (fun r => docs[r.index]?) ((sortResults resp.results).take top_k) with
        | some ranked_docs => ((ranked_docs, some resp), 1)
        | none => (([], none), 1)

/-- `c["payload"].get("text", "")`-style lookup in a payload mapping. -/
def payloadGet (p : List (String × String)) (key dflt : String) : String :=
  match p.find? (fun kv => kv.1 = key) with
  | some kv => kv.2
  | none => dflt

/-- `retrieve(query_vector, query_text, topk, mmr_k, rerank_topk)` from
`retriever.py`.  `search_vectors` is the external vector-search collaborator;
`co` the optional rerank client.  The `try ... except: pass` around the
mapping loop is `tryMap`: an `IndexError` inside it falls through to the
MMR-only fallback.  An exception raised by `mmr` itself propagates. -/
def retrieve (search_vectors : List ℚ → Nat → List Candidate)
    (co : Option RerankService) (query_vector : List ℚ) (query_text : String)
    (topk mmr_k rerank_topk : Nat) : Except String (List Candidate) :=
  let hits := search_vectors query_vector topk
  if hits = [] then .ok []
  else
    match mmr hits mmr_k (1/2) with
    | .error e => .error e
    | .ok mmr_sel =>
      let docs := mmr_sel.map (fun c => payloadGet c.payload ("text") (""))
      match (cohere_rerank co query_text docs rerank_topk).1.2 with
      | some rerank_meta =>
        match tryMap (fun r => mmr_sel[r.index]?)
            ((sortResults rerank_meta.results).take rerank_topk) with
        | some top_items => .ok top_items
        | none => .ok (mmr_sel.take rerank_topk)
      | none => .ok (mmr_sel.take rerank_topk)

/-! Concrete data used by the closed witness and counterexample theorems. -/

/-- A hit with score `1`, vector `[1, 0]` and text payload `t1`. -/
def w1 : Candidate := ⟨("1"), 1, some [1, 0], [(("text"), ("t1"))]⟩

/-- A hit with score `1/2`, vector `[0, 1]` and text payload `t2`. -/
def w2 : Candidate := ⟨("2"), 1/2, some [0, 1], [(("text"), ("t2"))]⟩

/-- A vector-search collaborator returning the two hits above. -/
def searchW : List ℚ → Nat → List Candidate := fun _ _ => [w1, w2]

/-- A scoring service that ranks the second document above the first. -/
def svcRev : RerankService := fun _ _ => .ok ⟨[⟨1, 9/10⟩, ⟨0, 1/10⟩]⟩

/-- A scoring service whose call always raises. -/
def svcDown : RerankService := fun _ _ => .error ("service down")

/-- A scoring service returning two results with equal relevance scores,
listed in the opposite of document order. -/
def svcTie : RerankService := fun _ _ => .ok ⟨[⟨1, 1/2⟩, ⟨0, 1/2⟩]⟩

/-- A successful response whose out-of-range index 99 sits below the top-2. -/
def svcOut : RerankService := fun _ _ => .ok ⟨[⟨1, 5⟩, ⟨0, 3⟩, ⟨99, 1⟩]⟩

/-- A successful response with the out-of-range index 99 inside the top-2. -/
def svcOutTop : RerankService := fun _ _ => .ok ⟨[⟨99, 5⟩, ⟨0, 3⟩]⟩

/-! ## Helper lemmas -/

theorem ratSqrt_nonneg (x : ℚ) : 0 ≤ ratSqrt x := by
  unfold ratSqrt
  split
  · exact le_refl 0
  · exact div_nonneg (Nat.cast_nonneg _) (Nat.cast_nonneg _)

theorem eps_pos : (0 : ℚ) < eps := by norm_num [eps]

theorem cosDenom_pos (a b : List ℚ) : 0 < cosDenom a b := by
  have h1 : 0 ≤ ratSqrt (sumSq a) * ratSqrt (sumSq b) :=
    mul_nonneg (ratSqrt_nonneg _) (ratSqrt_nonneg _)
  have h2 := eps_pos
  unfold cosDenom
  linarith

/-! ## C5 -/

/-- C5: for equal-length vectors, including zero-norm ones, the denominator
of the similarity is strictly positive (the fixed epsilon `1e-8` is added to
the product of the norms), so the division in `_cosine` is never a division
by zero and `_cosine` returns the value `dot / (na * nb + eps)`. -/
theorem cosine_denominator_pos (a b : List ℚ) (hlen : a.length = b.length) :
    0 < cosDenom a b ∧ _cosine a b = dotP a b / cosDenom a b :=
  ⟨cosDenom_pos a b, rfl⟩

/-- Witness for C5 at the zero vectors `[0, 0]` and `[0, 0]`. -/
theorem cosine_denominator_pos_witness :
    0 < cosDenom [(0 : ℚ), 0] [0, 0] ∧
      _cosine [(0 : ℚ), 0] [0, 0] = dotP [(0 : ℚ), 0] [0, 0] / cosDenom [(0 : ℚ), 0] [0, 0] :=
  cosine_denominator_pos [(0 : ℚ), 0] [0, 0] rfl

/-! ## C1 -/

/-- C1 (code bug in the source): the claim says that a candidate list in
which every vector is absent yields an empty Selection without an exception.
The code has no eligibility filtering at all: with two vector-less
candidates and `k = 2` the second round calls `_cosine` on `None` and raises
`TypeError`, and with `k = 1` the vector-less candidate is returned rather
than excluded. -/
theorem mmr_all_missing_vectors_raises :
    mmr [⟨("a"), 0, none, []⟩, ⟨("b"), 0, none, []⟩] 2 (1/2)
        = .error ("TypeError: argument of zip is not iterable") ∧
      mmr [⟨("c"), 0, none, []⟩] 1 (1/2) = .ok [⟨("c"), 0, none, []⟩] :=
  ⟨by decide, by decide⟩

/-! ## C6 -/

/-- C6: with no credential present (`COHERE_API_KEY` unset, so the client is
`None`), `cohere_rerank` returns the unavailable result `([], None)`
immediately and performs zero calls to the scoring service, whatever that
service would have been. -/
theorem rerank_unconfigured_no_call (svc : RerankService) (query : String)
    (docs : List String) (top_k : Nat) :
    cohere_rerank (mkClient none svc) query docs top_k = (([], none), 0) := rfl

/-! ## C7 -/

/-- Counterexample to C7: a successful response scores documents 0 and 1
equally but lists the entry for document 1 first; the adapter output is
`["b", "a"]`, which reverses the documents' original relative order, so the
sort is not stable with respect to the original document order. -/
theorem rerank_tie_order_cex :
    (cohere_rerank (some svcTie) ("q") [("a"), ("b")] 2).1.1 = [("b"), ("a")] := by decide

theorem insertDesc_perm {α : Type} (key : α → ℚ) (a : α) (l : List α) :
    (insertDesc key a l).Perm (a :: l) := by
  induction l with
  | nil => exact List.Perm.refl _
  | cons b t ih =>
    rw [insertDesc]
    split
    · exact List.Perm.refl _
    · exact List.Perm.trans (ih.cons b) (List.Perm.swap a b t)

theorem sortDesc_perm {α : Type} (key : α → ℚ) (l : List α) :
    (sortDesc key l).Perm l := by
  induction l with
  | nil => exact List.Perm.refl _
  | cons a t ih =>
    rw [sortDesc]
    exact List.Perm.trans (insertDesc_perm key a (sortDesc key t)) (ih.cons a)

theorem insertDesc_filter_pos {α : Type} (key : α → ℚ) (a : α) (p : α → Bool)
    (hpa : p a = true) (hgt : ∀ b, key a < key b → p b = false) (l : List α) :
    (insertDesc key a l).filter p = a :: l.filter p := by
  induction l with
  | nil => simp [insertDesc, hpa]
  | cons b t ih =>
    rw [insertDesc]
    by_cases h : key b ≤ key a
    · rw [if_pos h]
      simp [List.filter_cons, hpa]
    · rw [if_neg h]
      have hpb : p b = false := hgt b (lt_of_not_le h)
      simp [List.filter_cons, hpb, ih]

theorem insertDesc_filter_neg {α : Type} (key : α → ℚ) (a : α) (p : α → Bool)
    (hpa : p a = false) (l : List α) :
    (insertDesc key a l).filter p = l.filter p := by
  induction l with
  | nil => simp [insertDesc, hpa]
  | cons b t ih =>
    rw [insertDesc]
    by_cases h : key b ≤ key a
    · rw [if_pos h]
      simp [List.filter_cons, hpa]
    · rw [if_neg h]
      simp [List.filter_cons, ih]

theorem sortDesc_filter_key {α : Type} (key : α → ℚ) (v : ℚ) (l : List α) :
    (sortDesc key l).filter (fun x => key x = v) = l.filter (fun x => key x = v) := by
  induction l with
  | nil => rfl
  | cons a t ih =>
    rw [sortDesc]
    by_cases h : key a = v
    · rw [insertDesc_filter_pos key a _ (by simp [h]) ?gt, ih, List.filter_cons,
        if_pos (by simp [h])]
      case gt =>
        intro b hb
        simp only [decide_eq_false_iff_not]
        intro hbv
        rw [h, ← hbv] at hb
        exact absurd hb (lt_irrefl _)
    · rw [insertDesc_filter_neg key a _ (by simp [h]), ih, List.filter_cons,
        if_neg (by simp [h])]

/-- C7 amended: the descending sort the adapter applies to the service
response is stable with respect to the order of entries in the response
(not the original document order): for every relevance value `v`, the
response entries scoring `v` appear in the sorted output exactly in their
response order. -/
theorem rerank_sort_stable_response_order (results : List RerankEntry) (v : ℚ) :
    (sortResults results).filter (fun r => r.score = v)
      = results.filter (fun r => r.score = v) :=
  sortDesc_filter_key (fun r => r.score) v results

/-! ## Machinery for C2 and C3: what one scan round can select -/

/-- If the scan returns a chosen pair `(j, c)`, then either it was already
the incoming best, or `c` really sits at offset `j - i` of the scanned
list. -/
theorem scanBest_some (lamb : ℚ) (selected : List Candidate) :
    ∀ (l : List Candidate) (i : Nat) (best : Option (Nat × Candidate)) (bv : ℚ)
      (j : Nat) (c : Candidate),
    scanBest lamb selected l i best bv = .ok (some (j, c)) →
    best = some (j, c) ∨ ∃ t, j = i + t ∧ l[t]? = some c := by
  intro l
  induction l with
  | nil =>
    intro i best bv j c h
    rw [scanBest] at h
    left
    exact Except.ok.inj h
  | cons a rest ih =>
    intro i best bv j c h
    rw [scanBest] at h
    cases hss : simSel a selected with
    | error e => rw [hss] at h; exact absurd h (by simp)
    | ok q =>
      rw [hss] at h
      simp only [] at h
      by_cases hb : bv < lamb * a.score - (1 - lamb) * q
      · rw [if_pos hb] at h
        rcases ih (i + 1) (some (i, a)) _ j c h with heq | ⟨t, ht, hget⟩
        · right
          obtain ⟨h1, h2⟩ := Prod.mk.injEq .. ▸ Option.some.inj heq
          exact ⟨0, by omega, by rw [← h2]; simp⟩
        · right
          exact ⟨t + 1, by omega, by simpa using hget⟩
      · rw [if_neg hb] at h
        rcases ih (i + 1) best _ j c h with heq | ⟨t, ht, hget⟩
        · left; exact heq
        · right
          exact ⟨t + 1, by omega, by simpa using hget⟩

theorem perm_cons_eraseIdx {α : Type} :
    ∀ (l : List α) (i : Nat) (a : α), l[i]? = some a → l.Perm (a :: l.eraseIdx i)
  | [], i, a, h => by simp at h
  | b :: l, 0, a, h => by
    have hb : b = a := by simpa using h
    subst hb
    simp [List.eraseIdx]
  | b :: l, i + 1, a, h => by
    have h' : l[i]? = some a := by simpa using h
    have hperm := perm_cons_eraseIdx l i a h'
    have heq : (b :: l).eraseIdx (i + 1) = b :: l.eraseIdx i := by simp
    rw [heq]
    exact List.Perm.trans (hperm.cons b) (List.Perm.swap a b _)

theorem getElem?_lt_length {α : Type} (l : List α) (i : Nat) (a : α)
    (h : l[i]? = some a) : i < l.length := by
  by_contra hc
  rw [List.getElem?_eq_none_iff.mpr (Nat.le_of_not_lt hc)] at h
  exact absurd h (by simp)

/-- Loop invariant for the length of the selection: each successful round
moves exactly one candidate, so a normal return has length
`|selected| + min fuel |remaining|`. -/
theorem mmrLoop_length (lamb : ℚ) :
    ∀ (fuel : Nat) (selected remaining out : List Candidate),
    mmrLoop lamb fuel selected remaining = .ok out →
    out.length = selected.length + min fuel remaining.length := by
  intro fuel
  induction fuel with
  | zero =>
    intro sel rem out h
    rw [mmrLoop] at h
    rw [← Except.ok.inj h]
    simp
  | succ n ih =>
    intro sel rem out h
    cases rem with
    | nil =>
      rw [mmrLoop] at h
      rw [← Except.ok.inj h]
      simp
    | cons c0 rest =>
      rw [mmrLoop] at h
      cases hscan : scanBest lamb sel (c0 :: rest) 0 none initBestVal with
      | error e => rw [hscan] at h; exact absurd h (by simp)
      | ok best =>
        rw [hscan] at h
        cases best with
        | none => exact absurd h (by simp)
        | some jc =>
          obtain ⟨j, c⟩ := jc
          simp only [] at h
          have hrec := ih _ _ _ h
          rcases scanBest_some lamb sel _ 0 none initBestVal j c hscan with habs | ⟨t, ht, hget⟩
          · exact absurd habs (by simp)
          · have hj : j = t := by omega
            rw [← hj] at hget
            have hlt : j < (c0 :: rest).length := getElem?_lt_length _ _ _ hget
            rw [List.length_eraseIdx_of_lt hlt] at hrec
            rw [hrec]
            simp only [List.length_append, List.length_cons, List.length_nil]
            omega

/-- Loop invariant for permutations: a normal return of the loop, padded
with the candidates it never chose, is a permutation of
`selected ++ remaining`. -/
theorem mmrLoop_perm (lamb : ℚ) :
    ∀ (fuel : Nat) (selected remaining out : List Candidate),
    mmrLoop lamb fuel selected remaining = .ok out →
    ∃ rest, (out ++ rest).Perm (selected ++ remaining) := by
  intro fuel
  induction fuel with
  | zero =>
    intro sel rem out h
    rw [mmrLoop] at h
    rw [← Except.ok.inj h]
    exact ⟨rem, List.Perm.refl _⟩
  | succ n ih =>
    intro sel rem out h
    cases rem with
    | nil =>
      rw [mmrLoop] at h
      rw [← Except.ok.inj h]
      exact ⟨[], by simp⟩
    | cons c0 rest =>
      rw [mmrLoop] at h
      cases hscan : scanBest lamb sel (c0 :: rest) 0 none initBestVal with
      | error e => rw [hscan] at h; exact absurd h (by simp)
      | ok best =>
        rw [hscan] at h
        cases best with
        | none => exact absurd h (by simp)
        | some jc =>
          obtain ⟨j, c⟩ := jc
          simp only [] at h
          obtain ⟨rst, hperm⟩ := ih _ _ _ h
          rcases scanBest_some lamb sel _ 0 none initBestVal j c hscan with habs | ⟨t, ht, hget⟩
          · exact absurd habs (by simp)
          · have hj : j = t := by omega
            rw [← hj] at hget
            have hpc := perm_cons_eraseIdx _ _ _ hget
            have heq : (sel ++ [c]) ++ (c0 :: rest).eraseIdx j
                = sel ++ (c :: (c0 :: rest).eraseIdx j) := by
              simp [List.append_assoc]
            rw [heq] at hperm
            exact ⟨rst, List.Perm.trans hperm (List.Perm.append_left sel hpc.symm)⟩

/-! ## C2 -/

/-- Counterexample to C2: one candidate whose vector is absent, `k = 1`.
The claim predicts `min(1, |eligible|) = min(1, 0) = 0` selected items, but
the code performs no eligibility filtering and returns the vector-less
candidate, a Selection of length 1. -/
theorem mmr_length_eligible_cex :
    (mmr [⟨("d"), 0, none, []⟩] 1 (1/2)).map List.length = .ok 1 ∧
      min 1 (([⟨("d"), 0, none, []⟩] : List Candidate).filter
        (fun c => c.vector.isSome)).length = 0 :=
  ⟨by decide, by decide⟩

/-- C2 amended: whenever `mmr` returns a Selection at all (it can raise on
vector-less candidates, cf. C1), that Selection has length
`min k |candidates|`, counting all candidates because the code performs no
eligibility filtering; in particular `k` larger than the pool returns the
whole pool. -/
theorem mmr_length_min (candidates : List Candidate) (k : Nat) (lamb : ℚ)
    (sel : List Candidate) (h : mmr candidates k lamb = .ok sel) :
    sel.length = min k candidates.length := by
  have := mmrLoop_length lamb k [] candidates sel h
  simpa using this

/-- Witness for C2 at two eligible candidates with `k = 1`. -/
theorem mmr_length_min_witness :
    mmr [w1, w2] 1 (1/2) = .ok [w1] ∧ ([w1].length = min 1 [w1, w2].length) :=
  ⟨by decide, mmr_length_min [w1, w2] 1 (1/2) [w1] (by decide)⟩

/-! ## C3 -/

/-- Counterexample to C3: two input candidates share the id `"x"`; with
`k = 2` both are selected, so the returned Selection contains two entries
with the same id — the code never deduplicates by id. -/
theorem mmr_duplicate_ids_cex :
    (mmr [⟨("x"), 1, some [1], []⟩, ⟨("x"), 0, some [1], []⟩] 2 (1/2)).map
      (fun l => l.map Candidate.id) = .ok [("x"), ("x")] := by decide

/-- C3 amended: if the input candidates have pairwise-distinct ids, then any
Selection `mmr` returns has pairwise-distinct ids (the output consists of
distinct positions of the input). -/
theorem mmr_nodup_ids (candidates : List Candidate) (k : Nat) (lamb : ℚ)
    (sel : List Candidate) (hids : (candidates.map Candidate.id).Nodup)
    (h : mmr candidates k lamb = .ok sel) :
    (sel.map Candidate.id).Nodup := by
  obtain ⟨rest, hperm⟩ := mmrLoop_perm lamb k [] candidates sel h
  have hperm' : ((sel ++ rest).map Candidate.id).Perm (candidates.map Candidate.id) := by
    have := hperm.map Candidate.id
    simpa using this
  have hnd : ((sel ++ rest).map Candidate.id).Nodup :=
    List.Perm.nodup hperm'.symm hids
  rw [List.map_append] at hnd
  exact List.Nodup.sublist (List.sublist_append_left _ _) hnd

/-- Witness for C3 at two candidates with distinct ids. -/
theorem mmr_nodup_ids_witness :
    mmr [w1, w2] 2 (1/2) = .ok [w1, w2] ∧ ([w1, w2].map Candidate.id).Nodup :=
  ⟨by decide, mmr_nodup_ids [w1, w2] 2 (1/2) [w1, w2] (by decide) (by decide)⟩

/-! ## Machinery for C4: with `lamb = 1` each round picks the first
remaining candidate of maximal score, so the loop computes the stable
descending sort by score, truncated to `k`. -/

theorem maxCosines_ok (c : Candidate) (hc : c.vector.isSome) :
    ∀ (l : List Candidate), (∀ s ∈ l, s.vector.isSome) → ∀ acc : ℚ,
      ∃ q, maxCosines c l acc = .ok q := by
  intro l
  induction l with
  | nil => intro _ acc; exact ⟨acc, rfl⟩
  | cons s rest ih =>
    intro hl acc
    obtain ⟨a, ha⟩ := Option.isSome_iff_exists.mp hc
    obtain ⟨b, hb⟩ := Option.isSome_iff_exists.mp (hl s (List.mem_cons_self s rest))
    have hcv : cosineV c.vector s.vector = .ok (_cosine a b) := by rw [ha, hb]; rfl
    rw [maxCosines, hcv]
    exact ih (fun x hx => hl x (List.mem_cons_of_mem s hx)) _

theorem simSel_ok (c : Candidate) (hc : c.vector.isSome) :
    ∀ (l : List Candidate), (∀ s ∈ l, s.vector.isSome) → ∃ q, simSel c l = .ok q := by
  intro l hl
  cases l with
  | nil => exact ⟨0, rfl⟩
  | cons s rest =>
    obtain ⟨a, ha⟩ := Option.isSome_iff_exists.mp hc
    obtain ⟨b, hb⟩ := Option.isSome_iff_exists.mp (hl s (List.mem_cons_self s rest))
    have hcv : cosineV c.vector s.vector = .ok (_cosine a b) := by rw [ha, hb]; rfl
    rw [simSel, hcv]
    exact maxCosines_ok c hc rest (fun x hx => hl x (List.mem_cons_of_mem s hx)) _

/-- With `lamb = 1` the value of a candidate is exactly its score and no
similarity computation can raise, so the scan equals its pure shadow. -/
theorem scanBest_one (selected : List Candidate) (hsel : ∀ s ∈ selected, s.vector.isSome) :
    ∀ (l : List Candidate), (∀ c ∈ l, c.vector.isSome) →
      ∀ (i : Nat) (best : Option (Nat × Candidate)) (bv : ℚ),
      scanBest 1 selected l i best bv = .ok (scanPure l i best bv) := by
  intro l
  induction l with
  | nil => intro _ i best bv; rfl
  | cons c rest ih =>
    intro hl i best bv
    obtain ⟨q, hq⟩ := simSel_ok c (hl c (List.mem_cons_self c rest)) selected hsel
    rw [scanBest, hq]
    simp only []
    have hval : 1 * c.score - (1 - 1) * q = c.score := by ring
    rw [hval, scanPure]
    by_cases hb : bv < c.score
    · rw [if_pos hb, if_pos hb]
      exact ih (fun x hx => hl x (List.mem_cons_of_mem c hx)) _ _ _
    · rw [if_neg hb, if_neg hb]
      exact ih (fun x hx => hl x (List.mem_cons_of_mem c hx)) _ _ _

theorem firstMax_eq_none {α : Type} (key : α → ℚ) (l : List α) :
    firstMax key l = none ↔ l = [] := by
  cases l with
  | nil => simp [firstMax]
  | cons a t =>
    rw [firstMax]
    cases firstMax key t with
    | none => simp
    | some jb =>
      obtain ⟨j, b⟩ := jb
      by_cases h : key b ≤ key a
      · simp [h]
      · simp [h]

theorem firstMax_is_max {α : Type} (key : α → ℚ) :
    ∀ (l : List α) (j : Nat) (c : α), firstMax key l = some (j, c) →
      ∀ b ∈ l, key b ≤ key c := by
  intro l
  induction l with
  | nil => intro j c h; simp [firstMax] at h
  | cons a t ih =>
    intro j c h b hb
    rw [firstMax] at h
    cases hfm : firstMax key t with
    | none =>
      rw [hfm] at h
      simp only [] at h
      injection h with h0
      injection h0 with h1 h2
      subst h1
      subst h2
      have ht : t = [] := (firstMax_eq_none key t).mp hfm
      subst ht
      rcases List.mem_cons.mp hb with rfl | hbt
      · exact le_refl _
      · exact absurd hbt (by simp)
    | some jc =>
      obtain ⟨j', c'⟩ := jc
      rw [hfm] at h
      simp only [] at h
      by_cases hle : key c' ≤ key a
      · rw [if_pos hle] at h
        injection h with h0
        injection h0 with h1 h2
        subst h1
        subst h2
        rcases List.mem_cons.mp hb with rfl | hbt
        · exact le_refl _
        · exact le_trans (ih j' c' hfm b hbt) hle
      · rw [if_neg hle] at h
        injection h with h0
        injection h0 with h1 h2
        subst h1
        subst h2
        rcases List.mem_cons.mp hb with rfl | hbt
        · exact le_of_lt (lt_of_not_le hle)
        · exact ih j' c' hfm b hbt

theorem firstMax_getElem {α : Type} (key : α → ℚ) :
    ∀ (l : List α) (j : Nat) (c : α), firstMax key l = some (j, c) → l[j]? = some c := by
  intro l
  induction l with
  | nil => intro j c h; simp [firstMax] at h
  | cons a t ih =>
    intro j c h
    rw [firstMax] at h
    cases hfm : firstMax key t with
    | none =>
      rw [hfm] at h
      simp only [] at h
      injection h with h0
      injection h0 with h1 h2
      subst h1
      subst h2
      simp
    | some jc =>
      obtain ⟨j', c'⟩ := jc
      rw [hfm] at h
      simp only [] at h
      by_cases hle : key c' ≤ key a
      · rw [if_pos hle] at h
        injection h with h0
        injection h0 with h1 h2
        subst h1
        subst h2
        simp
      · rw [if_neg hle] at h
        injection h with h0
        injection h0 with h1 h2
        subst h1
        subst h2
        simpa using ih j' c' hfm

theorem firstMax_cons_isSome {α : Type} (key : α → ℚ) (a : α) (l : List α) :
    ∃ j c, firstMax key (a :: l) = some (j, c) := by
  rw [firstMax]
  cases firstMax key l with
  | none => exact ⟨0, a, rfl⟩
  | some jb =>
    obtain ⟨j, b⟩ := jb
    by_cases h : key b ≤ key a
    · exact ⟨0, a, by simp [h]⟩
    · exact ⟨j + 1, b, by simp [h]⟩

theorem insertDesc_eq_cons {α : Type} (key : α → ℚ) (a : α) (l : List α)
    (h : ∀ b ∈ l, key b ≤ key a) : insertDesc key a l = a :: l := by
  cases l with
  | nil => rfl
  | cons b t => rw [insertDesc, if_pos (h b (List.mem_cons_self b t))]

/-- The head of the stable descending sort is the first occurrence of the
maximum, and the tail is the sort of the list with that occurrence removed. -/
theorem sortDesc_eq_of_firstMax {α : Type} (key : α → ℚ) :
    ∀ (l : List α) (j : Nat) (c : α), firstMax key l = some (j, c) →
      sortDesc key l = c :: sortDesc key (l.eraseIdx j) := by
  intro l
  induction l with
  | nil => intro j c h; simp [firstMax] at h
  | cons a t ih =>
    intro j c h
    rw [firstMax] at h
    cases hfm : firstMax key t with
    | none =>
      rw [hfm] at h
      simp only [] at h
      injection h with h0
      injection h0 with h1 h2
      subst h1
      subst h2
      have ht : t = [] := (firstMax_eq_none key t).mp hfm
      subst ht
      rfl
    | some jc =>
      obtain ⟨j', c'⟩ := jc
      rw [hfm] at h
      simp only [] at h
      by_cases hle : key c' ≤ key a
      · rw [if_pos hle] at h
        injection h with h0
        injection h0 with h1 h2
        subst h1
        subst h2
        rw [sortDesc]
        have hall : ∀ b ∈ sortDesc key t, key b ≤ key a := by
          intro b hb
          exact le_trans
            (firstMax_is_max key t j' c' hfm b ((sortDesc_perm key t).mem_iff.mp hb)) hle
        rw [insertDesc_eq_cons key a _ hall]
        rfl
      · rw [if_neg hle] at h
        injection h with h0
        injection h0 with h1 h2
        subst h1
        subst h2
        rw [sortDesc, ih j' c' hfm, insertDesc, if_neg hle, List.eraseIdx_cons_succ]
        rfl

/-- Accumulator characterisation of the pure scan: starting from a current
best `(j, b)` at value `b.score`, the scan returns the shifted first
maximum of the rest if it strictly beats `b`, else keeps `(j, b)`. -/
theorem scanPure_acc :
    ∀ (l : List Candidate) (i j : Nat) (b : Candidate),
    scanPure l i (some (j, b)) b.score =
      (match firstMax Candidate.score l with
      | none => some (j, b)
      | some (j', c') =>
        if b.score < c'.score then some (i + j', c') else some (j, b)) := by
  intro l
  induction l with
  | nil => intro i j b; rfl
  | cons c rest ih =>
    intro i j b
    rw [scanPure]
    by_cases h1 : b.score < c.score
    · rw [if_pos h1, ih (i + 1) i c, firstMax]
      cases hfm : firstMax Candidate.score rest with
      | none => simp [h1]
      | some jc =>
        obtain ⟨j', c'⟩ := jc
        simp only []
        by_cases h2 : Candidate.score c' ≤ Candidate.score c
        · rw [if_neg (not_lt.mpr h2), if_pos h2]
          simp only []
          rw [if_pos h1]
          simp
        · rw [if_pos (not_le.mp h2), if_neg h2]
          simp only []
          rw [if_pos (lt_trans h1 (not_le.mp h2))]
          have harith : i + 1 + j' = i + (j' + 1) := by omega
          rw [harith]
    · rw [if_neg h1, ih (i + 1) j b, firstMax]
      cases hfm : firstMax Candidate.score rest with
      | none => simp [h1]
      | some jc =>
        obtain ⟨j', c'⟩ := jc
        simp only []
        by_cases h2 : Candidate.score c' ≤ Candidate.score c
        · rw [if_neg (not_lt.mpr (le_trans h2 (not_lt.mp h1))), if_pos h2]
          simp only []
          rw [if_neg h1]
        · rw [if_neg h2]
          simp only []
          by_cases h3 : b.score < c'.score
          · rw [if_pos h3, if_pos h3]
            have harith : i + 1 + j' = i + (j' + 1) := by omega
            rw [harith]
          · rw [if_neg h3, if_neg h3]

/-- Under the sentinel bound, the pure scan from the initial accumulator
computes exactly the first occurrence of the maximal score. -/
theorem scanPure_eq_firstMax :
    ∀ (l : List Candidate), (∀ c ∈ l, initBestVal < c.score) →
    scanPure l 0 none initBestVal = firstMax Candidate.score l := by
  intro l h
  cases l with
  | nil => rfl
  | cons a rest =>
    rw [scanPure, if_pos (h a (List.mem_cons_self a rest)), scanPure_acc rest 1 0 a,
      firstMax]
    cases hfm : firstMax Candidate.score rest with
    | none => rfl
    | some jc =>
      obtain ⟨j', c'⟩ := jc
      simp only []
      by_cases h2 : Candidate.score c' ≤ Candidate.score a
      · rw [if_neg (not_lt.mpr h2), if_pos h2]
      · rw [if_pos (not_le.mp h2), if_neg h2]
        have harith : 1 + j' = j' + 1 := by omega
        rw [harith]

/-- The main loop at `lamb = 1`: it returns `selected` extended by the first
`fuel` entries of the stable descending sort of `remaining` by score. -/
theorem mmrLoop_one :
    ∀ (fuel : Nat) (selected remaining : List Candidate),
    (∀ s ∈ selected, s.vector.isSome) → (∀ c ∈ remaining, c.vector.isSome) →
    (∀ c ∈ remaining, initBestVal < c.score) →
    mmrLoop 1 fuel selected remaining
      = .ok (selected ++ (sortDesc Candidate.score remaining).take fuel) := by
  intro fuel
  induction fuel with
  | zero =>
    intro selected remaining _ _ _
    rw [mmrLoop]
    simp
  | succ n ih =>
    intro selected remaining hsel hrem hsc
    cases remaining with
    | nil =>
      rw [mmrLoop]
      simp [sortDesc]
    | cons c0 rest =>
      obtain ⟨j, c, hfm⟩ := firstMax_cons_isSome Candidate.score c0 rest
      have hscan : scanBest 1 selected (c0 :: rest) 0 none initBestVal = .ok (some (j, c)) := by
        rw [scanBest_one selected hsel _ hrem, scanPure_eq_firstMax _ hsc, hfm]
      rw [mmrLoop, hscan]
      simp only []
      have hcmem : c ∈ c0 :: rest := List.getElem?_mem (firstMax_getElem _ _ _ _ hfm)
      have hsub := (List.eraseIdx_sublist (c0 :: rest) j).subset
      have hsel' : ∀ s ∈ selected ++ [c], s.vector.isSome := by
        intro s hs
        rcases List.mem_append.mp hs with hx | hx
        · exact hsel s hx
        · rw [List.mem_singleton.mp hx]
          exact hrem c hcmem
      have hrem' : ∀ x ∈ (c0 :: rest).eraseIdx j, x.vector.isSome :=
        fun x hx => hrem x (hsub hx)
      have hsc' : ∀ x ∈ (c0 :: rest).eraseIdx j, initBestVal < x.score :=
        fun x hx => hsc x (hsub hx)
      rw [ih _ _ hsel' hrem' hsc', sortDesc_eq_of_firstMax _ _ _ _ hfm,
        List.take_succ_cons]
      simp [List.append_assoc]

/-! ## C4 -/

/-- Counterexample to C4: a single eligible candidate whose score is below
the `-1e9` sentinel that the scan uses as its starting best value.  No
candidate ever beats the sentinel, `best_idx` stays `None`, and
`remaining.pop(None)` raises `TypeError` — instead of returning the
candidate as the claim demands. -/
theorem mmr_lambda_one_sentinel_cex :
    mmr [⟨("e"), -(2000000000 : ℚ), some [1], []⟩] 1 1
      = .error ("TypeError: list indices must be integers or slices, not NoneType") := by
  decide

/-- C4 amended: for candidates that all carry a vector and whose scores all
exceed the `-1e9` sentinel initialising the scan, `mmr` with `lamb = 1`
returns the first `k` entries of the stable descending sort by score —
descending score order with ties broken by input position, first wins. -/
theorem mmr_lambda_one_sorted (candidates : List Candidate) (k : Nat)
    (hvec : ∀ c ∈ candidates, c.vector.isSome)
    (hsc : ∀ c ∈ candidates, initBestVal < c.score) :
    mmr candidates k 1 = .ok ((sortDesc Candidate.score candidates).take k) := by
  have h := mmrLoop_one k [] candidates (by intro s hs; simp at hs) hvec hsc
  rw [mmr, h]
  simp

/-- Witness for C4: three eligible candidates with a score tie between the
second and third; the selection is the stable descending sort. -/
theorem mmr_lambda_one_sorted_witness :
    mmr [⟨("p"), 1/2, some [1], []⟩, ⟨("q"), 3/4, some [0, 1], []⟩,
        ⟨("r"), 3/4, some [1, 1], []⟩] 3 1
      = .ok ((sortDesc Candidate.score [⟨("p"), 1/2, some [1], []⟩,
          ⟨("q"), 3/4, some [0, 1], []⟩, ⟨("r"), 3/4, some [1, 1], []⟩]).take 3) :=
  mmr_lambda_one_sorted _ 3 (by decide) (by decide)

/-! ## Machinery for C8, C9, C10: the orchestrator -/

theorem tryMap_some_forall {α β : Type} (f : α → Option β) :
    ∀ (l : List α) (bs : List β), tryMap f l = some bs → ∀ a ∈ l, (f a).isSome := by
  intro l
  induction l with
  | nil => intro bs _ a ha; exact absurd ha (by simp)
  | cons x t ih =>
    intro bs h a ha
    rw [tryMap] at h
    cases hfx : f x with
    | none => rw [hfx] at h; exact absurd h (by simp)
    | some b =>
      rw [hfx] at h
      simp only [] at h
      cases htm : tryMap f t with
      | none => rw [htm] at h; exact absurd h (by simp)
      | some bs2 =>
        rcases List.mem_cons.mp ha with rfl | hat
        · rw [hfx]; rfl
        · exact ih bs2 htm a hat

theorem tryMap_isSome_of_forall {α β : Type} (f : α → Option β) :
    ∀ (l : List α), (∀ a ∈ l, (f a).isSome) → ∃ bs, tryMap f l = some bs := by
  intro l
  induction l with
  | nil => intro _; exact ⟨[], rfl⟩
  | cons x t ih =>
    intro hall
    obtain ⟨b, hb⟩ := Option.isSome_iff_exists.mp (hall x (List.mem_cons_self x t))
    obtain ⟨bs, hbs⟩ := ih (fun a ha => hall a (List.mem_cons_of_mem x ha))
    refine ⟨b :: bs, ?_⟩
    rw [tryMap, hb]
    simp only []
    rw [hbs]

theorem tryMap_eq_none_of_mem {α β : Type} (f : α → Option β) :
    ∀ (l : List α) (a : α), a ∈ l → f a = none → tryMap f l = none := by
  intro l
  induction l with
  | nil => intro a ha _; exact absurd ha (by simp)
  | cons x t ih =>
    intro a ha hfa
    rw [tryMap]
    rcases List.mem_cons.mp ha with rfl | hat
    · rw [hfa]
    · cases hfx : f x with
      | none => rfl
      | some b =>
        simp only []
        rw [ih a hat hfa]

/-- Inversion of a successful adapter call: the client must be present, the
document list non-empty, the service call successful, and the index mapping
over the top `top_k` sorted results successful. -/
theorem cohere_rerank_some_inv (co : Option RerankService) (q : String)
    (docs : List String) (top_k : Nat) (rd : List String) (meta : RerankResp) (n : Nat)
    (h : cohere_rerank co q docs top_k = ((rd, some meta), n)) :
    ∃ svc, co = some svc ∧ docs ≠ [] ∧ svc q docs = .ok meta ∧
      tryMap (fun r => docs[r.index]?) ((sortResults meta.results).take top_k) = some rd := by
  cases co with
  | none =>
    rw [cohere_rerank] at h
    injection h with hP hN
    injection hP with hD hM
    exact absurd hM (by simp)
  | some svc =>
    rw [cohere_rerank] at h
    by_cases hd : docs = []
    · rw [if_pos hd] at h
      injection h with hP hN
      injection hP with hD hM
      exact absurd hM (by simp)
    · rw [if_neg hd] at h
      cases hs : svc q docs with
      | error e =>
        rw [hs] at h
        injection h with hP hN
        injection hP with hD hM
        exact absurd hM (by simp)
      | ok resp =>
        rw [hs] at h
        simp only [] at h
        cases ht : tryMap (fun r => docs[r.index]?) ((sortResults resp.results).take top_k) with
        | none =>
          rw [ht] at h
          injection h with hP hN
          injection hP with hD hM
          exact absurd hM (by simp)
        | some rds =>
          rw [ht] at h
          injection h with hP hN
          injection hP with hD hM
          have hresp : resp = meta := Option.some.inj hM
          subst hresp
          subst hD
          exact ⟨svc, rfl, hd, hs, ht⟩

/-! ## C8 -/

/-- C8: on a non-empty vector search whose MMR stage returned the survivors
`sel`, if the rerank adapter succeeds with response `meta`, then `retrieve`
maps the first `rerank_topk` entries of the descending-sorted response back
to the survivor Candidates by index (full payloads included) and returns
exactly that sequence. -/
theorem retrieve_rerank_success_mapping
    (search_vectors : List ℚ → Nat → List Candidate) (co : Option RerankService)
    (query_vector : List ℚ) (query_text : String) (topk mmr_k rerank_topk : Nat)
    (sel : List Candidate) (rd : List String) (meta : RerankResp) (n : Nat)
    (hhits : search_vectors query_vector topk ≠ [])
    (hmmr : mmr (search_vectors query_vector topk) mmr_k (1/2) = .ok sel)
    (hrr : cohere_rerank co query_text
        (sel.map (fun c => payloadGet c.payload ("text") (""))) rerank_topk
      = ((rd, some meta), n)) :
    ∃ items,
      tryMap (fun r => sel[r.index]?) ((sortResults meta.results).take rerank_topk)
        = some items ∧
      retrieve search_vectors co query_vector query_text topk mmr_k rerank_topk
        = .ok items := by
  obtain ⟨svc, hco, hdocs, hsvc, htm⟩ :=
    cohere_rerank_some_inv co query_text _ rerank_topk rd meta n hrr
  have hall : ∀ r ∈ (sortResults meta.results).take rerank_topk, (sel[r.index]?).isSome := by
    intro r hr
    have h1 := tryMap_some_forall _ _ rd htm r hr
    have h2 : r.index < (sel.map (fun c => payloadGet c.payload ("text") (""))).length := by
      by_contra hc
      rw [List.getElem?_eq_none_iff.mpr (Nat.le_of_not_lt hc)] at h1
      exact absurd h1 (by simp)
    rw [List.length_map] at h2
    rw [List.getElem?_eq_getElem h2]
    rfl
  obtain ⟨items, hitems⟩ := tryMap_isSome_of_forall _ _ hall
  refine ⟨items, hitems, ?_⟩
  rw [retrieve]
  simp only []
  rw [if_neg hhits, hmmr]
  simp only []
  rw [hrr]
  simp only []
  rw [hitems]

/-- Witness for C8: the reversing service of the spec example — the final
result is the reverse of the MMR-selected order, truncated to 2. -/
theorem retrieve_rerank_success_mapping_witness :
    ∃ items,
      tryMap (fun r => ([w1, w2] : List Candidate)[r.index]?)
        ((sortResults (RerankResp.mk [⟨1, 9/10⟩, ⟨0, 1/10⟩]).results).take 2)
        = some items ∧
      retrieve searchW (some svcRev) [1, 0] ("q") 5 2 2 = .ok items :=
  retrieve_rerank_success_mapping searchW (some svcRev) [1, 0] ("q") 5 2 2
    [w1, w2] [("t2"), ("t1")] (RerankResp.mk [⟨1, 9/10⟩, ⟨0, 1/10⟩]) 1
    (by decide) (by decide) (by decide)

/-! ## C9 -/

/-- C9: on a non-empty vector search whose MMR stage returned the survivors
`sel`, if the rerank adapter reports unavailable (no client, empty document
list, failed call, or malformed indices), `retrieve` does not raise and
returns exactly the first `rerank_topk` MMR survivors in MMR order. -/
theorem retrieve_rerank_fallback
    (search_vectors : List ℚ → Nat → List Candidate) (co : Option RerankService)
    (query_vector : List ℚ) (query_text : String) (topk mmr_k rerank_topk : Nat)
    (sel : List Candidate) (rd : List String) (n : Nat)
    (hhits : search_vectors query_vector topk ≠ [])
    (hmmr : mmr (search_vectors query_vector topk) mmr_k (1/2) = .ok sel)
    (hrr : cohere_rerank co query_text
        (sel.map (fun c => payloadGet c.payload ("text") (""))) rerank_topk
      = ((rd, none), n)) :
    retrieve search_vectors co query_vector query_text topk mmr_k rerank_topk
      = .ok (sel.take rerank_topk) := by
  rw [retrieve]
  simp only []
  rw [if_neg hhits, hmmr]
  simp only []
  rw [hrr]

/-- Witness for C9: no client configured, the fallback returns the MMR
selection truncated to 2. -/
theorem retrieve_rerank_fallback_witness :
    retrieve searchW none [1, 0] ("q") 5 2 2 = .ok (([w1, w2] : List Candidate).take 2) :=
  retrieve_rerank_fallback searchW none [1, 0] ("q") 5 2 2 [w1, w2] [] 0
    (by decide) (by decide) (by decide)

/-! ## C10 -/

/-- Counterexample to C10: the service reports success and its response
contains the index 99, far outside the MMR selection of length 2 — but that
entry is not among the top `rerank_topk = 2` after sorting, so no exception
is ever thrown and `retrieve` returns the reranked order `[w2, w1]`, not
the first 2 entries of the MMR selection `[w1, w2]`. -/
theorem retrieve_bad_index_cex :
    retrieve searchW (some svcOut) [1, 0] ("q") 5 2 2 = .ok [w2, w1] ∧
      mmr (searchW [1, 0] 5) 2 (1/2) = .ok [w1, w2] ∧
      svcOut ("q") [("t1"), ("t2")] = .ok (RerankResp.mk [⟨1, 5⟩, ⟨0, 3⟩, ⟨99, 1⟩]) ∧
      ([w1, w2] : List Candidate).length ≤ 99 ∧ [w2, w1] ≠ [w1, w2] :=
  ⟨by decide, by decide, by decide, by decide, by decide⟩

/-- C10 amended: if the successful response carries an index outside the
range of the MMR selection among the first `rerank_topk` entries of its
descending-sorted results, the adapter's own mapping raises `IndexError`,
is caught, and `retrieve` returns the first `rerank_topk` MMR survivors in
MMR order — no exception propagates. -/
theorem retrieve_bad_index_fallback
    (search_vectors : List ℚ → Nat → List Candidate) (svc : RerankService)
    (query_vector : List ℚ) (query_text : String) (topk mmr_k rerank_topk : Nat)
    (sel : List Candidate) (meta : RerankResp) (r : RerankEntry)
    (hhits : search_vectors query_vector topk ≠ [])
    (hmmr : mmr (search_vectors query_vector topk) mmr_k (1/2) = .ok sel)
    (hsvc : svc query_text (sel.map (fun c => payloadGet c.payload ("text") ("")))
      = .ok meta)
    (hr : r ∈ (sortResults meta.results).take rerank_topk)
    (hbad : sel.length ≤ r.index) :
    retrieve search_vectors (some svc) query_vector query_text topk mmr_k rerank_topk
      = .ok (sel.take rerank_topk) := by
  have hnone : (cohere_rerank (some svc) query_text
      (sel.map (fun c => payloadGet c.payload ("text") (""))) rerank_topk).1.2 = none := by
    rw [cohere_rerank]
    by_cases hd : (sel.map (fun c => payloadGet c.payload ("text") (""))) = []
    · rw [if_pos hd]
    · rw [if_neg hd, hsvc]
      simp only []
      have hfr : ((sel.map (fun c => payloadGet c.payload ("text") ("")))[r.index]?) = none := by
        rw [List.getElem?_eq_none_iff, List.length_map]
        exact hbad
      rw [tryMap_eq_none_of_mem _ _ r hr hfr]
  rw [retrieve]
  simp only []
  rw [if_neg hhits, hmmr]
  simp only []
  rw [hnone]

/-- Witness for the amended C10: the bad index 99 is inside the top-2 of
the sorted response, so `retrieve` falls back to the MMR order. -/
theorem retrieve_bad_index_fallback_witness :
    retrieve searchW (some svcOutTop) [1, 0] ("q") 5 2 2
      = .ok (([w1, w2] : List Candidate).take 2) :=
  retrieve_bad_index_fallback searchW svcOutTop [1, 0] ("q") 5 2 2 [w1, w2]
    (RerankResp.mk [⟨99, 5⟩, ⟨0, 3⟩]) ⟨99, 5⟩
    (by decide) (by decide) (by decide) (by decide) (by decide)

end Retriever
